import Mathlib

/-!
Verification development for `version_buddy`'s SemVer 2.0 parser
(`src/version_buddy/semver.py`).

A Python `str` is a sequence of Unicode code points; we model it as `List Char`
(`Char` in Lean is exactly a Unicode scalar value).  Python `int` is modelled as
`Int`.  Python functions that can raise are modelled in `Except`; the two
exception types the module can raise (`TypeError` and `SemVerParseError`) are
kept disjoint in the `PyError` sum.
-/

deriving instance DecidableEq for Except

set_option maxRecDepth 8192

namespace VersionBuddy

/-- `MAX_VERSION_STRING_CODEUNIT_COUNT` from the source (`semver.py`, line 93). -/
def MAX_VERSION_STRING_CODEUNIT_COUNT : Nat := 256

/-- Models `is_latin_alphanumeric`: membership in `string.ascii_letters` or
`string.digits`. -/
def is_latin_alphanumeric (c : Char) : Bool :=
  ('A' ≤ c && c ≤ 'Z') || ('a' ≤ c && c ≤ 'z') || ('0' ≤ c && c ≤ '9')

/-- Models `is_unicode_alphanumeric`: `unicodedata.category(c)` is one of the
letter/number categories `Lu, Ll, Lt, Lm, Lo, Nd, Nl, No`.  The category table
itself lives in Python's `unicodedata` module, outside this repository; we model
it by explicit code-point ranges.  On ASCII the model is exact (the ASCII members
of those categories are exactly `[A-Za-z0-9]`); outside ASCII we cover the
Latin-1 ordinals and superscripts, the Latin-1/Latin-Extended letters, Greek,
Cyrillic and Bengali letters, the Arabic-Indic digits and the CJK ideographs.
This agrees with the source on every character examined in this development
(and on the characters of the repository's own test suite); no theorem below
depends on its value outside ASCII. -/
def is_unicode_alphanumeric (c : Char) : Bool :=
  if c.toNat < 128 then is_latin_alphanumeric c
  else
    (c.toNat == 0xAA) || (c.toNat == 0xB5) || (c.toNat == 0xBA) ||
    (0xB2 ≤ c.toNat && c.toNat ≤ 0xB3) || (c.toNat == 0xB9) ||
    (0xC0 ≤ c.toNat && c.toNat ≤ 0x2AF && c.toNat != 0xD7 && c.toNat != 0xF7) ||
    (0x391 ≤ c.toNat && c.toNat ≤ 0x3A9) ||
    (0x3B1 ≤ c.toNat && c.toNat ≤ 0x3C9) ||
    (0x410 ≤ c.toNat && c.toNat ≤ 0x44F) ||
    (0x660 ≤ c.toNat && c.toNat ≤ 0x669) ||
    (0x985 ≤ c.toNat && c.toNat ≤ 0x98C) ||
    (0x4E00 ≤ c.toNat && c.toNat ≤ 0x9FFF)

/-- Models the local `isdigit` helper of `_expect_version_component`
(Python's `str.isdigit`), restricted to the ASCII digits, on which the two
agree exactly.  Python's `isdigit` additionally accepts non-ASCII digit
characters: decimal (`Nd`) digits such as U+0662, which `int()` also converts,
and `Numeric_Type=Digit` characters such as U+00B2, on which `int()` raises an
uncaught `ValueError`.  The full table is Unicode data outside this repository
and is not modelled; on inputs containing such characters the model and the
program may differ in which parse error they raise or in whether a version
component is accepted.  The one claim whose truth is sensitive to this
difference is the lone-zero acceptance half of C4, whose statement is
accordingly restricted to following characters in the ASCII range (see
`C4_leading_zero`); every other claim's statement was checked not to depend on
the behaviour at non-ASCII digits. -/
def is_digit (c : Char) : Bool := c.isDigit

/-- Decimal digit character for `n < 10`; used to model Python's `str(int)`. -/
def digitChar (n : Nat) : Char :=
  match n with
  | 0 => '0' | 1 => '1' | 2 => '2' | 3 => '3' | 4 => '4'
  | 5 => '5' | 6 => '6' | 7 => '7' | 8 => '8' | _ => '9'

/-- Worker for `natDigitsCore`: the first argument bounds the recursion depth
(structurally), the digits of `n` are produced whenever `n ≤ fuel`, which is
maintained because `n / 10 < n` for `n ≠ 0`. -/
def natDigitsGo : Nat → Nat → List Char
  | 0, _ => []
  | fuel + 1, n =>
    if n = 0 then [] else natDigitsGo fuel (n / 10) ++ [digitChar (n % 10)]

/-- Decimal digits of `n`, most significant first; empty for `0`. -/
def natDigitsCore (n : Nat) : List Char := natDigitsGo n n

/-- Decimal rendering of a natural number, as Python's `str` produces it. -/
def natDigits (n : Nat) : List Char :=
  if n = 0 then ['0'] else natDigitsCore n

/-- Python's `str` on an `int` (used in `SemVer.__str__`'s f-string). -/
def pyIntStr (n : Int) : List Char :=
  if n < 0 then '-' :: natDigits n.natAbs else natDigits n.toNat

/-- Python's `int()` on the non-empty ASCII digit strings assembled by
`_expect_version_component`. -/
def strToInt (cs : List Char) : Int :=
  Int.ofNat (cs.foldl (fun a c => 10 * a + (c.toNat - 48)) 0)

/-- Models the `SemVerParseError` exception: it carries only its message. -/
structure SemVerParseError where
  msg : List Char
deriving DecidableEq, Repr

/- Error messages of the source, with their variable parts explicit. -/

def msgInternal : List Char := "Internal Error: advanced beyond input".data

def msgLimitExceeded : List Char :=
  "Limit exceeded: MAX_VERSION_STRING_CODEUNIT_COUNT".data

def msgIdentifierInvalid : List Char :=
  "An identifier must be a non-empty (latin) alphanumeric string".data

def msgExpectedComponent (name : List Char) (off : Nat) : List Char :=
  "Expected ".data ++ name ++ " version number at offset ".data ++ natDigits off

def msgUnexpectedDigit (off : Nat) : List Char :=
  "Unexpected digit at offset ".data ++ natDigits off ++
    ", numbers cannot start with zero".data

def msgExpectedDelimiter (off : Nat) : List Char :=
  "Expected delimiter at offset ".data ++ natDigits off

def msgUnexpectedAlnum (c : Char) (off : Nat) : List Char :=
  "Unexpected alphanumeric character \"".data ++ [c] ++ "\" at offset ".data ++
    natDigits off ++ " (SemVer is latin alphabet only)".data

def msgExpectedIdentifier (name : List Char) (off : Nat) : List Char :=
  "Expected ".data ++ name ++ " identifier at offset ".data ++ natDigits off

def msgUnexpectedCharacter (off : Nat) : List Char :=
  "Unexpected character at offset ".data ++ natDigits off

/-- The `Identifier` dataclass. -/
structure Identifier where
  value : List Char
deriving DecidableEq, Repr

/-- Models `Identifier.__init__` with `_validated=False`: the public
construction path, which validates the string. -/
def Identifier.make (value : List Char) : Except SemVerParseError Identifier :=
  if value.isEmpty || !(value.all is_latin_alphanumeric) then
    .error ⟨msgIdentifierInvalid⟩
  else
    .ok ⟨value⟩

/-- Models `Identifier(value, _validated=True)`: the parser-internal bypass that
skips re-validation; it just stores the value. -/
def Identifier.validated (value : List Char) : Identifier := ⟨value⟩

/-- The `SemVer` dataclass. -/
structure SemVer where
  major : Int
  minor : Int
  patch : Int
  prerelease_identifiers : List Identifier := []
  build_identifiers : List Identifier := []
deriving DecidableEq, Repr

/-- Python's `"." .join(...)`. -/
def joinDots : List (List Char) → List Char
  | [] => []
  | [x] => x
  | x :: y :: xs => x ++ '.' :: joinDots (y :: xs)

/-- Models `SemVer.__str__`. -/
def SemVer.str (v : SemVer) : List Char :=
  let prerelease := joinDots (v.prerelease_identifiers.map Identifier.value)
  let build := joinDots (v.build_identifiers.map Identifier.value)
  let s := pyIntStr v.major ++ '.' :: (pyIntStr v.minor ++ '.' :: pyIntStr v.patch)
  let s1 := if prerelease.isEmpty then s else s ++ '-' :: prerelease
  if build.isEmpty then s1 else s1 ++ '+' :: build

/-- The `_ParserState` cursor: the full input plus a current offset. -/
structure ParserState where
  input : List Char
  offset : Nat
deriving DecidableEq, Repr

/-- `_ParserState.peek`: the character at the current offset, if any. -/
def ParserState.peek (p : ParserState) : Option Char := p.input[p.offset]?

/-- `_ParserState.peek_and_then` specialised to boolean predicates (its only use
in the source besides the raising `is_alnum`, modelled separately below). -/
def ParserState.peek_and_then (p : ParserState) (f : Char → Bool) : Option Bool :=
  p.peek.map f

/-- Truthiness of a `peek_and_then` result in the source's `if` conditions:
Python's `None` is falsy. -/
def pyTruthy : Option Bool → Bool
  | none => false
  | some b => b

/-- `_ParserState.advance`: the source guards on `offset < len(input)`, which is
exactly `peek ≠ none`, returns the peeked character and moves the offset one
step; past the end it raises the internal error. -/
def ParserState.advance (p : ParserState) :
    Except SemVerParseError (Char × ParserState) :=
  match p.peek with
  | some c => .ok (c, ⟨p.input, p.offset + 1⟩)
  | none => .error ⟨msgInternal⟩

/-- `_ParserState.at_end`. -/
def ParserState.at_end (p : ParserState) : Bool := p.offset == p.input.length

theorem peek_eq_some {p : ParserState} {c : Char} (h : p.peek = some c) :
    p.offset < p.input.length ∧ p.input[p.offset]? = some c := by
  unfold ParserState.peek at h
  exact ⟨(List.getElem?_eq_some.mp h).1, h⟩

theorem advance_eq_ok {p : ParserState} {c : Char} {p' : ParserState}
    (h : p.advance = .ok (c, p')) :
    p.peek = some c ∧ p' = ⟨p.input, p.offset + 1⟩ ∧ p.offset < p.input.length := by
  unfold ParserState.advance at h
  cases hpk : p.peek with
  | none => rw [hpk] at h; exact absurd h (by simp)
  | some d =>
    rw [hpk] at h
    have hd : d = c ∧ (⟨p.input, p.offset + 1⟩ : ParserState) = p' := by
      simpa using h
    obtain ⟨hdc, hps⟩ := hd
    subst hdc
    exact ⟨rfl, hps.symm, (peek_eq_some hpk).1⟩

/-- Worker for `collect_digits`: the `fuel` argument bounds the number of loop
iterations structurally.  Each iteration advances the cursor by one unit, so
the number of unread units bounds the iteration count; the `0` case can only be
reached with the cursor at end of input, where it returns exactly what the loop
body would (`peek` is `none`, so the guard is falsy). -/
def collect_digits_go : Nat → ParserState →
    Except SemVerParseError (List Char × ParserState)
  | 0, p => .ok ([], p)
  | fuel + 1, p =>
    if pyTruthy (p.peek_and_then is_digit) then
      match p.advance with
      | .ok (c, p1) =>
        match collect_digits_go fuel p1 with
        | .ok (cs, p2) => .ok (c :: cs, p2)
        | .error e => .error e
      | .error e => .error e
    else
      .ok ([], p)

/-- The digit-collecting `while` loop of `_expect_version_component`
(`while next_is_digit(): num_str += p.advance()`). -/
def collect_digits (p : ParserState) :
    Except SemVerParseError (List Char × ParserState) :=
  collect_digits_go (p.input.length - p.offset) p

/-- Models `_expect_version_component`. -/
def expect_version_component (p : ParserState) (name : List Char) :
    Except SemVerParseError (Int × ParserState) :=
  if pyTruthy (p.peek_and_then is_digit) then
    match p.advance with
    | .error e => .error e
    | .ok (c, p1) =>
      let should_be_zero := c == '0'
      if pyTruthy (p1.peek_and_then is_digit) && should_be_zero then
        .error ⟨msgUnexpectedDigit p1.offset⟩
      else
        match collect_digits p1 with
        | .error e => .error e
        | .ok (cs, p2) => .ok (strToInt (c :: cs), p2)
  else
    .error ⟨msgExpectedComponent name p.offset⟩

/-- Models `check_if_char`. -/
def check_if_char (expected : Char) : Char → Bool := fun c => c == expected

def is_dot : Char → Bool := check_if_char '.'

def is_prerelease_start : Char → Bool := check_if_char '-'

def is_build_start : Char → Bool := check_if_char '+'

/-- Models `expect_delimiter`. -/
def expect_delimiter (p : ParserState) : Except SemVerParseError ParserState :=
  if !pyTruthy (p.peek_and_then is_dot) then
    .error ⟨msgExpectedDelimiter p.offset⟩
  else
    match p.advance with
    | .error e => .error e
    | .ok (_, p1) => .ok p1

/-- Models `p.peek_and_then(is_alnum)` where `is_alnum` is the raising local
function of `_expect_identifiers`: a Latin alphanumeric yields `True`, a
non-Latin alphanumeric raises, anything else yields `False`; end of input
yields `None`. -/
def next_is_alphanumeric_check (p : ParserState) :
    Except SemVerParseError (Option Bool) :=
  match p.peek with
  | none => .ok none
  | some c =>
    if is_latin_alphanumeric c then .ok (some true)
    else if is_unicode_alphanumeric c then .error ⟨msgUnexpectedAlnum c p.offset⟩
    else .ok (some false)

/-- Worker for `collect_alnum`, with the iteration count bounded structurally
by `fuel`, as in `collect_digits_go`; the `0` case is reached only at end of
input, where the guard is falsy and the loop body would stop identically. -/
def collect_alnum_go : Nat → ParserState →
    Except SemVerParseError (List Char × ParserState)
  | 0, p => .ok ([], p)
  | fuel + 1, p =>
    match next_is_alphanumeric_check p with
    | .error e => .error e
    | .ok r =>
      if pyTruthy r then
        match p.advance with
        | .ok (c, p1) =>
          match collect_alnum_go fuel p1 with
          | .ok (cs, p2) => .ok (c :: cs, p2)
          | .error e => .error e
        | .error e => .error e
      else
        .ok ([], p)

/-- The inner character loop of `_expect_identifiers`
(`while next_is_alphanumeric(): current += p.advance()`). -/
def collect_alnum (p : ParserState) :
    Except SemVerParseError (List Char × ParserState) :=
  collect_alnum_go (p.input.length - p.offset) p

/-- Worker for `expect_identifiers_loop`: the `while True` loop of
`_expect_identifiers` with the accumulated identifier list explicit and the
iteration count bounded structurally by `fuel`.  Each iteration consumes at
least one unit (the first identifier character), so the number of unread units
bounds the iteration count; the `0` case is only reached at end of input, where
the loop body would likewise fail with "Expected ... identifier" (the guard
`next_is_alphanumeric()` is `None`, hence falsy). -/
def expect_identifiers_go : Nat → ParserState → List Char → List Identifier →
    Except SemVerParseError (List Identifier × ParserState)
  | 0, p, name, _ => .error ⟨msgExpectedIdentifier name p.offset⟩
  | fuel + 1, p, name, acc =>
    match next_is_alphanumeric_check p with
    | .error e => .error e
    | .ok r =>
      if pyTruthy r then
        match p.advance with
        | .error e => .error e
        | .ok (c, p1) =>
          match collect_alnum p1 with
          | .error e => .error e
          | .ok (cs, p2) =>
            let acc1 := acc ++ [Identifier.validated (c :: cs)]
            if pyTruthy (p2.peek_and_then is_dot) then
              match p2.advance with
              | .error e => .error e
              | .ok (_, p3) => expect_identifiers_go fuel p3 name acc1
            else
              .ok (acc1, p2)
      else
        .error ⟨msgExpectedIdentifier name p.offset⟩

/-- The `while True` loop of `_expect_identifiers`. -/
def expect_identifiers_loop (p : ParserState) (name : List Char)
    (acc : List Identifier) :
    Except SemVerParseError (List Identifier × ParserState) :=
  expect_identifiers_go (p.input.length - p.offset) p name acc

/-- Models `_expect_identifiers` (loop plus the final, structurally dead,
emptiness check). -/
def expect_identifiers (p : ParserState) (name : List Char) :
    Except SemVerParseError (List Identifier × ParserState) :=
  match expect_identifiers_loop p name [] with
  | .error e => .error e
  | .ok (ids, p') =>
    if ids.isEmpty then .error ⟨msgExpectedIdentifier name p'.offset⟩
    else .ok (ids, p')

/-- Models the two optional sections of `parse` (lines 184-192 of the source):
`if p.peek_and_then(is_...start): p.advance(); ids = _expect_identifiers(p, name)`
with `ids = []` when the marker is absent. -/
def optional_identifiers (start : Char → Bool) (name : List Char)
    (p : ParserState) :
    Except SemVerParseError (List Identifier × ParserState) :=
  if pyTruthy (p.peek_and_then start) then
    match p.advance with
    | .error e => .error e
    | .ok (_, pa) => expect_identifiers pa name
  else
    .ok ([], p)

/-- Models `parse` after its `isinstance` guard (the guard itself lives in
`parse` below, which raises `TypeError` for non-strings).  The unused `options`
parameter of the source carries no data (`SemVerParseOptions` has no fields) and
is omitted. -/
def parseStr (s : List Char) : Except SemVerParseError SemVer :=
  if s.length > MAX_VERSION_STRING_CODEUNIT_COUNT then
    .error ⟨msgLimitExceeded⟩
  else
    match expect_version_component ⟨s, 0⟩ "major".data with
    | .error e => .error e
    | .ok (major, p1) =>
    match expect_delimiter p1 with
    | .error e => .error e
    | .ok p2 =>
    match expect_version_component p2 "minor".data with
    | .error e => .error e
    | .ok (minor, p3) =>
    match expect_delimiter p3 with
    | .error e => .error e
    | .ok p4 =>
    match expect_version_component p4 "patch".data with
    | .error e => .error e
    | .ok (patch, p5) =>
    match optional_identifiers is_prerelease_start "pre-release".data p5 with
    | .error e => .error e
    | .ok (pre, p6) =>
    match optional_identifiers is_build_start "build".data p6 with
    | .error e => .error e
    | .ok (build, p7) =>
    if p7.at_end then
      .ok ⟨major, minor, patch, pre, build⟩
    else
      .error ⟨msgUnexpectedCharacter p7.offset⟩

/-- A closed universe of Python values sufficient for the dynamic-typing claims:
strings plus the non-string examples the spec names. -/
inductive PyObj where
  | pyStr (s : List Char)
  | pyNone
  | pyInt (n : Int)
  | pyList (xs : List Int)
deriving DecidableEq, Repr

/-- The two disjoint exception kinds `parse` can raise: Python's built-in
`TypeError` and the module's `SemVerParseError`. -/
inductive PyError where
  | typeError (msg : List Char)
  | semverError (e : SemVerParseError)
deriving DecidableEq, Repr

/-- Models the public `parse`: the `isinstance(s, str)` guard raising
`TypeError("s must be a string")`, then the string parser. -/
def parse (x : PyObj) : Except PyError SemVer :=
  match x with
  | .pyStr s => (parseStr s).mapError PyError.semverError
  | _ => .error (.typeError "s must be a string".data)

/-- UTF-16 code units of one code point (only used to state the spec's
unit-counting claim; the source never computes this). -/
def utf16Units (c : Char) : Nat := if c.toNat < 0x10000 then 1 else 2

/-- UTF-16 length of a string, counting a non-BMP character as two units. -/
def utf16Length (s : List Char) : Nat := (s.map utf16Units).sum

/-- The numeric value `int()` computes on a digit string (the `Nat` core of
`strToInt`). -/
def digitsVal (cs : List Char) : Nat :=
  cs.foldl (fun a c => 10 * a + (c.toNat - 48)) 0

/-- An identifier as produced by the identifier-list rule: non-empty, all Latin
alphanumeric. -/
def validIdent (i : Identifier) : Prop :=
  i.value ≠ [] ∧ ∀ c ∈ i.value, is_latin_alphanumeric c = true

/-! ### Decimal rendering: `natDigits` is the canonical digit string -/

theorem strToInt_eq (cs : List Char) : strToInt cs = Int.ofNat (digitsVal cs) := rfl

theorem natDigitsGo_zero (fuel : Nat) : natDigitsGo fuel 0 = [] := by
  cases fuel <;> simp [natDigitsGo]

theorem natDigitsGo_congr (f1 : Nat) :
    ∀ f2 n, n ≤ f1 → n ≤ f2 → natDigitsGo f1 n = natDigitsGo f2 n := by
  induction f1 with
  | zero =>
    intro f2 n h1 _
    interval_cases n
    rw [natDigitsGo_zero, natDigitsGo_zero]
  | succ f1' ih =>
    intro f2 n h1 h2
    by_cases hn : n = 0
    · subst hn; rw [natDigitsGo_zero, natDigitsGo_zero]
    · obtain ⟨f2', rfl⟩ : ∃ f2', f2 = f2' + 1 := ⟨f2 - 1, by omega⟩
      have hdiv : n / 10 < n := Nat.div_lt_self (by omega) (by decide)
      simp only [natDigitsGo, if_neg hn]
      rw [ih f2' (n / 10) (by omega) (by omega)]

theorem natDigitsCore_succ {n : Nat} (hn : n ≠ 0) :
    natDigitsCore n = natDigitsCore (n / 10) ++ [digitChar (n % 10)] := by
  have hdiv : n / 10 < n := Nat.div_lt_self (by omega) (by decide)
  obtain ⟨m, rfl⟩ : ∃ m, n = m + 1 := ⟨n - 1, by omega⟩
  show natDigitsGo (m + 1) (m + 1) = _
  simp only [natDigitsGo, if_neg hn]
  rw [natDigitsCore, natDigitsGo_congr m _ ((m + 1) / 10) (by omega) le_rfl]

theorem digitChar_toNat {m : Nat} (h : m < 10) : (digitChar m).toNat = 48 + m := by
  interval_cases m <;> decide

theorem digitChar_isDigit {m : Nat} (h : m < 10) : is_digit (digitChar m) = true := by
  interval_cases m <;> decide

theorem digitChar_ne_zero {m : Nat} (h1 : 1 ≤ m) (h2 : m < 10) : digitChar m ≠ '0' := by
  interval_cases m <;> decide

theorem char_eq_of_toNat_eq {a b : Char} (h : a.toNat = b.toNat) : a = b := by
  have := congrArg Char.ofNat h
  rwa [Char.ofNat_toNat, Char.ofNat_toNat] at this

theorem is_digit_toNat {c : Char} (h : is_digit c = true) :
    48 ≤ c.toNat ∧ c.toNat ≤ 57 := by
  simp only [is_digit, Char.isDigit] at h
  have h1 : ('0' : Char).toNat ≤ c.toNat := by
    simp only [Bool.and_eq_true, decide_eq_true_eq] at h
    exact h.1
  have h2 : c.toNat ≤ ('9' : Char).toNat := by
    simp only [Bool.and_eq_true, decide_eq_true_eq] at h
    exact h.2
  exact ⟨h1, h2⟩

theorem digitChar_of_digit {c : Char} (h : is_digit c = true) :
    digitChar (c.toNat - 48) = c := by
  obtain ⟨h1, h2⟩ := is_digit_toNat h
  apply char_eq_of_toNat_eq
  rw [digitChar_toNat (by omega)]
  omega

theorem natDigitsCore_digits (n : Nat) : ∀ c ∈ natDigitsCore n, is_digit c = true := by
  induction n using Nat.strong_induction_on with
  | _ n ih =>
    by_cases hn : n = 0
    · subst hn; intro c hc; simp [natDigitsCore, natDigitsGo_zero] at hc
    · rw [natDigitsCore_succ hn]
      intro c hc
      rcases List.mem_append.mp hc with h | h
      · exact ih (n / 10) (Nat.div_lt_self (by omega) (by decide)) c h
      · rw [List.mem_singleton.mp h]
        exact digitChar_isDigit (Nat.mod_lt _ (by decide))

theorem natDigitsCore_head (n : Nat) (hn : n ≠ 0) :
    ∃ d t, natDigitsCore n = d :: t ∧ d ≠ '0' := by
  induction n using Nat.strong_induction_on with
  | _ n ih =>
    rw [natDigitsCore_succ hn]
    by_cases hq : n / 10 = 0
    · rw [hq, natDigitsCore, natDigitsGo_zero]
      have hlt : n < 10 := by omega
      have hmod : n % 10 = n := Nat.mod_eq_of_lt hlt
      exact ⟨digitChar (n % 10), [], rfl, by rw [hmod]; exact digitChar_ne_zero (by omega) hlt⟩
    · obtain ⟨d, t, hdt, hd⟩ := ih (n / 10) (Nat.div_lt_self (by omega) (by decide)) hq
      exact ⟨d, t ++ [digitChar (n % 10)], by rw [hdt]; rfl, hd⟩

theorem digitsVal_append_singleton (l : List Char) (c : Char) :
    digitsVal (l ++ [c]) = 10 * digitsVal l + (c.toNat - 48) := by
  unfold digitsVal
  rw [List.foldl_append]
  rfl

theorem digitsVal_natDigitsCore (n : Nat) : digitsVal (natDigitsCore n) = n := by
  induction n using Nat.strong_induction_on with
  | _ n ih =>
    by_cases hn : n = 0
    · subst hn; rfl
    · rw [natDigitsCore_succ hn, digitsVal_append_singleton,
        ih (n / 10) (Nat.div_lt_self (by omega) (by decide)),
        digitChar_toNat (Nat.mod_lt _ (by decide))]
      omega

theorem digitsVal_natDigits (n : Nat) : digitsVal (natDigits n) = n := by
  by_cases hn : n = 0
  · subst hn; rfl
  · rw [natDigits, if_neg hn]; exact digitsVal_natDigitsCore n

theorem natDigits_digits (n : Nat) : ∀ c ∈ natDigits n, is_digit c = true := by
  by_cases hn : n = 0
  · subst hn; intro c hc; simp [natDigits] at hc; subst hc; decide
  · rw [natDigits, if_neg hn]; exact natDigitsCore_digits n

theorem natDigitsCore_ne_nil {n : Nat} (hn : n ≠ 0) : natDigitsCore n ≠ [] := by
  obtain ⟨d, t, hdt, -⟩ := natDigitsCore_head n hn
  rw [hdt]; simp

/-- Canonical form: `natDigitsCore` inverts `digitsVal` on digit strings whose
first digit is not `'0'`. -/
theorem natDigitsCore_digitsVal (d : Char) (cs : List Char)
    (hall : ∀ c ∈ d :: cs, is_digit c = true) (hd0 : d ≠ '0') :
    natDigitsCore (digitsVal (d :: cs)) = d :: cs := by
  induction cs using List.reverseRecOn with
  | nil =>
    have hd := hall d (by simp)
    obtain ⟨h48, h57⟩ := is_digit_toNat hd
    have hne : d.toNat ≠ 48 := by
      intro hc
      exact hd0 (char_eq_of_toNat_eq (by rw [hc]; decide))
    have hval : digitsVal [d] = d.toNat - 48 := by
      unfold digitsVal; simp
    rw [hval]
    have hlt : d.toNat - 48 < 10 := by omega
    have hpos : d.toNat - 48 ≠ 0 := by omega
    rw [natDigitsCore_succ hpos, Nat.div_eq_of_lt hlt, Nat.mod_eq_of_lt hlt]
    rw [natDigitsCore, natDigitsGo_zero, digitChar_of_digit hd]
    rfl
  | append_singleton l c ihl =>
    have hall' : ∀ x ∈ d :: l, is_digit x = true := by
      intro x hx
      apply hall
      rcases List.mem_cons.mp hx with h | h
      · simp [h]
      · simp [List.mem_append.mpr (Or.inl h)]
    have hc : is_digit c = true := hall c (by simp)
    have ih := ihl hall'
    have hne : digitsVal (d :: l) ≠ 0 := by
      intro hz
      have := natDigitsCore_ne_nil (n := digitsVal (d :: l))
      rw [hz] at ih
      simp [natDigitsCore, natDigitsGo_zero] at ih
    obtain ⟨hc48, hc57⟩ := is_digit_toNat hc
    have hrw : (d :: (l ++ [c])) = (d :: l) ++ [c] := by simp
    rw [hrw, digitsVal_append_singleton]
    have hm : c.toNat - 48 < 10 := by omega
    have hval_ne : 10 * digitsVal (d :: l) + (c.toNat - 48) ≠ 0 := by omega
    rw [natDigitsCore_succ hval_ne]
    have hdiv : (10 * digitsVal (d :: l) + (c.toNat - 48)) / 10 = digitsVal (d :: l) := by
      omega
    have hmod : (10 * digitsVal (d :: l) + (c.toNat - 48)) % 10 = c.toNat - 48 := by
      omega
    rw [hdiv, hmod, ih, digitChar_of_digit hc]

/-- Canonical form, top level: rendering the parsed value of a digit string
with no redundant leading zero gives the string back. -/
theorem natDigits_digitsVal (cs : List Char) (hne : cs ≠ [])
    (hall : ∀ c ∈ cs, is_digit c = true)
    (hlz : cs.head? = some '0' → cs = ['0']) :
    natDigits (digitsVal cs) = cs := by
  obtain ⟨d, t, rfl⟩ : ∃ d t, cs = d :: t := by
    cases cs with
    | nil => exact absurd rfl hne
    | cons d t => exact ⟨d, t, rfl⟩
  by_cases hd0 : d = '0'
  · have := hlz (by rw [hd0]; rfl)
    rw [this]
    rfl
  · have hcore := natDigitsCore_digitsVal d t hall hd0
    have hvalne : digitsVal (d :: t) ≠ 0 := by
      intro hz
      rw [hz] at hcore
      simp [natDigitsCore, natDigitsGo_zero] at hcore
    rw [natDigits, if_neg hvalne, hcore]

theorem pyIntStr_ofNat (n : Nat) : pyIntStr (Int.ofNat n) = natDigits n := by
  unfold pyIntStr
  simp [Int.ofNat_eq_coe]

/-! ### Cursor lemmas -/

theorem peek_eq_head_drop (p : ParserState) :
    p.peek = (p.input.drop p.offset).head? := (List.head?_drop _ _).symm

theorem peek_drop_cons {p : ParserState} {c : Char} (h : p.peek = some c) :
    p.input.drop p.offset = c :: p.input.drop (p.offset + 1) := by
  obtain ⟨hlt, hget⟩ := peek_eq_some h
  rw [List.drop_eq_getElem_cons hlt]
  have : p.input[p.offset] = c := by
    have := List.getElem?_eq_some.mp hget
    obtain ⟨h1, h2⟩ := this
    exact h2
  rw [this]

theorem peek_none_of_le {p : ParserState} (h : p.input.length ≤ p.offset) :
    p.peek = none := by
  unfold ParserState.peek
  exact List.getElem?_eq_none h

theorem advance_of_peek {p : ParserState} {c : Char} (h : p.peek = some c) :
    p.advance = .ok (c, ⟨p.input, p.offset + 1⟩) := by
  unfold ParserState.advance
  rw [h]

theorem pyTruthy_peek_and_then {p : ParserState} {f : Char → Bool}
    (h : pyTruthy (p.peek_and_then f) = true) :
    ∃ c, p.peek = some c ∧ f c = true := by
  unfold ParserState.peek_and_then at h
  cases hpk : p.peek with
  | none => rw [hpk] at h; simp [pyTruthy] at h
  | some c =>
    rw [hpk] at h
    exact ⟨c, rfl, by simpa [pyTruthy] using h⟩

theorem pyTruthy_peek_and_then_of {p : ParserState} {f : Char → Bool} {c : Char}
    (hpk : p.peek = some c) (hf : f c = true) :
    pyTruthy (p.peek_and_then f) = true := by
  unfold ParserState.peek_and_then
  rw [hpk]
  simpa [pyTruthy] using hf

/-! ### The digit loop -/

theorem collect_digits_go_spec (fuel : Nat) :
    ∀ p : ParserState, p.input.length - p.offset ≤ fuel →
    ∃ cs, collect_digits_go fuel p = .ok (cs, ⟨p.input, p.offset + cs.length⟩) ∧
      (∀ c ∈ cs, is_digit c = true) ∧
      p.input.drop p.offset = cs ++ p.input.drop (p.offset + cs.length) ∧
      pyTruthy (ParserState.peek_and_then ⟨p.input, p.offset + cs.length⟩ is_digit)
        = false := by
  induction fuel with
  | zero =>
    intro p hf
    have hpk : p.peek = none := peek_none_of_le (by omega)
    refine ⟨[], by simp [collect_digits_go], by simp, by simp, ?_⟩
    unfold ParserState.peek_and_then
    have h0 : ParserState.peek ⟨p.input, p.offset + ([] : List Char).length⟩ = none := by
      simpa using hpk
    rw [h0]
    rfl
  | succ fuel ih =>
    intro p hf
    by_cases hg : pyTruthy (p.peek_and_then is_digit) = true
    · obtain ⟨c, hpk, hc⟩ := pyTruthy_peek_and_then hg
      have hadv := advance_of_peek hpk
      obtain ⟨cs, hres, hdig, hdrop, hstop⟩ :=
        ih ⟨p.input, p.offset + 1⟩ (by simp; omega)
      have hlen : p.offset + 1 + cs.length = p.offset + (c :: cs).length := by
        simp; omega
      have hres' : collect_digits_go fuel ⟨p.input, p.offset + 1⟩ =
          .ok (cs, ⟨p.input, p.offset + (c :: cs).length⟩) := by
        rw [hres, hlen]
      refine ⟨c :: cs, ?_, ?_, ?_, ?_⟩
      · simp [collect_digits_go, hg, hadv, hres']
      · intro d hd
        rcases List.mem_cons.mp hd with h | h
        · rw [h]; exact hc
        · exact hdig d h
      · rw [peek_drop_cons hpk]
        simp only [] at hdrop
        rw [hdrop, ← hlen]
        simp
      · rw [← hlen]
        simpa using hstop
    · have hg' : pyTruthy (p.peek_and_then is_digit) = false := by
        simpa using hg
      refine ⟨[], by simp [collect_digits_go, hg'], by simp, by simp, ?_⟩
      simpa using hg'

theorem collect_digits_spec (p : ParserState) :
    ∃ cs, collect_digits p = .ok (cs, ⟨p.input, p.offset + cs.length⟩) ∧
      (∀ c ∈ cs, is_digit c = true) ∧
      p.input.drop p.offset = cs ++ p.input.drop (p.offset + cs.length) ∧
      pyTruthy (ParserState.peek_and_then ⟨p.input, p.offset + cs.length⟩ is_digit)
        = false :=
  collect_digits_go_spec _ p le_rfl

/-! ### Message head characters (used to separate the error kinds) -/

theorem msgExpectedComponent_head (name : List Char) (off : Nat) :
    (msgExpectedComponent name off).head? = some 'E' := rfl

theorem msgUnexpectedDigit_head (off : Nat) :
    (msgUnexpectedDigit off).head? = some 'U' := rfl

theorem msgExpectedDelimiter_head (off : Nat) :
    (msgExpectedDelimiter off).head? = some 'E' := rfl

theorem msgUnexpectedAlnum_head (c : Char) (off : Nat) :
    (msgUnexpectedAlnum c off).head? = some 'U' := rfl

theorem msgExpectedIdentifier_head (name : List Char) (off : Nat) :
    (msgExpectedIdentifier name off).head? = some 'E' := rfl

theorem msgUnexpectedCharacter_head (off : Nat) :
    (msgUnexpectedCharacter off).head? = some 'U' := rfl

/-! ### The version-component rule -/

theorem expect_version_component_ok {p : ParserState} {name : List Char}
    {k : Int} {p' : ParserState}
    (h : expect_version_component p name = .ok (k, p')) :
    ∃ n : Nat, k = Int.ofNat n ∧
      p' = ⟨p.input, p.offset + (natDigits n).length⟩ ∧
      p.input.drop p.offset
        = natDigits n ++ p.input.drop (p.offset + (natDigits n).length) := by
  unfold expect_version_component at h
  by_cases hg : pyTruthy (p.peek_and_then is_digit) = true
  · obtain ⟨c, hpk, hc⟩ := pyTruthy_peek_and_then hg
    rw [if_pos hg, advance_of_peek hpk] at h
    simp only [] at h
    by_cases hz :
        (pyTruthy (ParserState.peek_and_then ⟨p.input, p.offset + 1⟩ is_digit)
          && (c == '0')) = true
    · rw [if_pos hz] at h
      exact absurd h (by simp)
    · rw [if_neg hz] at h
      obtain ⟨cs, hres, hdig, hdrop, hstop⟩ :=
        collect_digits_spec ⟨p.input, p.offset + 1⟩
      simp only [] at hres hdrop hstop
      rw [hres] at h
      have hk : strToInt (c :: cs) = k ∧
          (⟨p.input, p.offset + 1 + cs.length⟩ : ParserState) = p' := by
        simpa using h
      have hall : ∀ d ∈ c :: cs, is_digit d = true := by
        intro d hd
        rcases List.mem_cons.mp hd with h1 | h1
        · rw [h1]; exact hc
        · exact hdig d h1
      have hlz : (c :: cs).head? = some '0' → c :: cs = ['0'] := by
        intro hhead
        have hc0 : c = '0' := by simpa using hhead
        subst hc0
        cases hcs : cs with
        | nil => rfl
        | cons d t =>
          exfalso
          rw [hcs] at hdrop
          have hpk1 : ParserState.peek ⟨p.input, p.offset + 1⟩ = some d := by
            rw [peek_eq_head_drop]
            simp only []
            rw [hdrop]
            rfl
          have hd : is_digit d = true := hdig d (by rw [hcs]; simp)
          have := pyTruthy_peek_and_then_of hpk1 hd
          simp [this] at hz
      have hcanon := natDigits_digitsVal (c :: cs) (by simp) hall hlz
      refine ⟨digitsVal (c :: cs), ?_, ?_, ?_⟩
      · rw [← hk.1, strToInt_eq]
      · rw [← hk.2, hcanon]
        simp only [List.length_cons]
        rw [show p.offset + (cs.length + 1) = p.offset + 1 + cs.length from by omega]
      · rw [hcanon]
        rw [peek_drop_cons hpk, hdrop]
        simp only [List.length_cons, List.cons_append]
        rw [show p.offset + (cs.length + 1) = p.offset + 1 + cs.length from by omega]
  · rw [if_neg hg] at h
    exact absurd h (by simp)

theorem expect_version_component_err {p : ParserState} {name : List Char}
    {e : SemVerParseError}
    (h : expect_version_component p name = .error e) :
    e.msg.head? = some 'E' ∨ e.msg.head? = some 'U' := by
  unfold expect_version_component at h
  by_cases hg : pyTruthy (p.peek_and_then is_digit) = true
  · obtain ⟨c, hpk, hc⟩ := pyTruthy_peek_and_then hg
    rw [if_pos hg, advance_of_peek hpk] at h
    simp only [] at h
    by_cases hz :
        (pyTruthy (ParserState.peek_and_then ⟨p.input, p.offset + 1⟩ is_digit)
          && (c == '0')) = true
    · rw [if_pos hz] at h
      have : (⟨msgUnexpectedDigit (p.offset + 1)⟩ : SemVerParseError) = e := by
        simpa using h
      rw [← this]
      exact Or.inr (msgUnexpectedDigit_head _)
    · rw [if_neg hz] at h
      obtain ⟨cs, hres, -, -, -⟩ := collect_digits_spec ⟨p.input, p.offset + 1⟩
      simp only [] at hres
      rw [hres] at h
      exact absurd h (by simp)
  · rw [if_neg hg] at h
    have : (⟨msgExpectedComponent name p.offset⟩ : SemVerParseError) = e := by
      simpa using h
    rw [← this]
    exact Or.inl (msgExpectedComponent_head _ _)

/-! ### The delimiter rule -/

theorem expect_delimiter_ok {p p' : ParserState}
    (h : expect_delimiter p = .ok p') :
    p.peek = some '.' ∧ p' = ⟨p.input, p.offset + 1⟩ := by
  unfold expect_delimiter at h
  by_cases hg : pyTruthy (p.peek_and_then is_dot) = true
  · obtain ⟨c, hpk, hc⟩ := pyTruthy_peek_and_then hg
    have hcd : c = '.' := by simpa [is_dot, check_if_char] using hc
    subst hcd
    rw [if_neg (by simp [hg]), advance_of_peek hpk] at h
    have : p' = (⟨p.input, p.offset + 1⟩ : ParserState) := by
      simpa using h.symm
    exact ⟨hpk, this⟩
  · rw [if_pos (by simpa using hg)] at h
    exact absurd h (by simp)

theorem expect_delimiter_err {p : ParserState} {e : SemVerParseError}
    (h : expect_delimiter p = .error e) : e.msg.head? = some 'E' := by
  unfold expect_delimiter at h
  by_cases hg : pyTruthy (p.peek_and_then is_dot) = true
  · obtain ⟨c, hpk, -⟩ := pyTruthy_peek_and_then hg
    rw [if_neg (by simp [hg]), advance_of_peek hpk] at h
    exact absurd h (by simp)
  · rw [if_pos (by simpa using hg)] at h
    have : (⟨msgExpectedDelimiter p.offset⟩ : SemVerParseError) = e := by
      simpa using h
    rw [← this]
    exact msgExpectedDelimiter_head _

/-! ### The identifier character check -/

theorem nac_true {p : ParserState}
    (h : next_is_alphanumeric_check p = .ok (some true)) :
    ∃ c, p.peek = some c ∧ is_latin_alphanumeric c = true := by
  unfold next_is_alphanumeric_check at h
  cases hpk : p.peek with
  | none => rw [hpk] at h; exact absurd h (by simp)
  | some c =>
    rw [hpk] at h
    simp only [] at h
    by_cases hl : is_latin_alphanumeric c = true
    · exact ⟨c, rfl, hl⟩
    · rw [if_neg hl] at h
      by_cases hu : is_unicode_alphanumeric c = true
      · rw [if_pos hu] at h; exact absurd h (by simp)
      · rw [if_neg hu] at h
        have : (some false : Option Bool) = some true := by simpa using h
        simp at this

theorem nac_err {p : ParserState} {e : SemVerParseError}
    (h : next_is_alphanumeric_check p = .error e) :
    ∃ c, e = ⟨msgUnexpectedAlnum c p.offset⟩ := by
  unfold next_is_alphanumeric_check at h
  cases hpk : p.peek with
  | none => rw [hpk] at h; exact absurd h (by simp)
  | some c =>
    rw [hpk] at h
    simp only [] at h
    by_cases hl : is_latin_alphanumeric c = true
    · rw [if_pos hl] at h; exact absurd h (by simp)
    · rw [if_neg hl] at h
      by_cases hu : is_unicode_alphanumeric c = true
      · rw [if_pos hu] at h
        exact ⟨c, by simpa using h.symm⟩
      · rw [if_neg hu] at h; exact absurd h (by simp)

/-! ### The identifier character loop -/

theorem collect_alnum_go_ok (fuel : Nat) :
    ∀ (p : ParserState) (cs : List Char) (p' : ParserState),
    p.input.length - p.offset ≤ fuel →
    collect_alnum_go fuel p = .ok (cs, p') →
    p' = ⟨p.input, p.offset + cs.length⟩ ∧
    (∀ c ∈ cs, is_latin_alphanumeric c = true) ∧
    p.input.drop p.offset = cs ++ p.input.drop (p.offset + cs.length) := by
  induction fuel with
  | zero =>
    intro p cs p' hf h
    have : ([] : List Char) = cs ∧ p = p' := by
      simpa [collect_alnum_go] using h
    obtain ⟨h1, h2⟩ := this
    subst h2
    rw [← h1]
    exact ⟨by simp, by simp, by simp⟩
  | succ fuel ih =>
    intro p cs p' hf h
    simp only [collect_alnum_go] at h
    cases hn : next_is_alphanumeric_check p with
    | error e => rw [hn] at h; simp at h
    | ok r =>
      rw [hn] at h
      simp only [] at h
      by_cases hr : pyTruthy r = true
      · rw [if_pos hr] at h
        have hrt : r = some true := by
          cases r with
          | none => simp [pyTruthy] at hr
          | some b => cases b with
            | false => simp [pyTruthy] at hr
            | true => rfl
        subst hrt
        obtain ⟨c0, hpk, hlat⟩ := nac_true hn
        rw [advance_of_peek hpk] at h
        simp only [] at h
        cases hcol : collect_alnum_go fuel ⟨p.input, p.offset + 1⟩ with
        | error e => rw [hcol] at h; simp at h
        | ok csp =>
          obtain ⟨cs1, p2⟩ := csp
          rw [hcol] at h
          simp only [] at h
          have hok : c0 :: cs1 = cs ∧ p2 = p' := by simpa using h
          obtain ⟨hcs, hp2⟩ := hok
          obtain ⟨hp2', hlat1, hdrop1⟩ :=
            ih ⟨p.input, p.offset + 1⟩ cs1 p2 (by simp; omega) hcol
          simp only [] at hp2' hdrop1
          subst hp2
          subst hcs
          refine ⟨?_, ?_, ?_⟩
          · rw [hp2']
            simp only [List.length_cons]
            rw [show p.offset + (cs1.length + 1) = p.offset + 1 + cs1.length from
              by omega]
          · intro d hd
            rcases List.mem_cons.mp hd with h1 | h1
            · rw [h1]; exact hlat
            · exact hlat1 d h1
          · rw [peek_drop_cons hpk, hdrop1]
            simp only [List.length_cons, List.cons_append]
            rw [show p.offset + (cs1.length + 1) = p.offset + 1 + cs1.length from
              by omega]
      · rw [if_neg hr] at h
        have hok : ([] : List Char) = cs ∧ p = p' := by simpa using h
        obtain ⟨h1, h2⟩ := hok
        subst h2
        rw [← h1]
        exact ⟨by simp, by simp, by simp⟩

theorem collect_alnum_go_err (fuel : Nat) :
    ∀ (p : ParserState) (e : SemVerParseError),
    collect_alnum_go fuel p = .error e →
    ∃ c off, e = ⟨msgUnexpectedAlnum c off⟩ := by
  induction fuel with
  | zero => intro p e h; simp [collect_alnum_go] at h
  | succ fuel ih =>
    intro p e h
    simp only [collect_alnum_go] at h
    cases hn : next_is_alphanumeric_check p with
    | error e' =>
      rw [hn] at h
      simp only [] at h
      obtain ⟨c, hc⟩ := nac_err hn
      have : e' = e := by simpa using h
      exact ⟨c, p.offset, by rw [← this, hc]⟩
    | ok r =>
      rw [hn] at h
      simp only [] at h
      by_cases hr : pyTruthy r = true
      · rw [if_pos hr] at h
        have hrt : r = some true := by
          cases r with
          | none => simp [pyTruthy] at hr
          | some b => cases b with
            | false => simp [pyTruthy] at hr
            | true => rfl
        subst hrt
        obtain ⟨c0, hpk, -⟩ := nac_true hn
        rw [advance_of_peek hpk] at h
        simp only [] at h
        cases hcol : collect_alnum_go fuel ⟨p.input, p.offset + 1⟩ with
        | error e' =>
          rw [hcol] at h
          simp only [] at h
          have : e' = e := by simpa using h
          obtain ⟨c, off, hc⟩ := ih _ e' hcol
          exact ⟨c, off, by rw [← this, hc]⟩
        | ok csp =>
          obtain ⟨cs1, p2⟩ := csp
          rw [hcol] at h
          simp at h
      · rw [if_neg hr] at h
        simp at h

theorem collect_alnum_ok {p : ParserState} {cs : List Char} {p' : ParserState}
    (h : collect_alnum p = .ok (cs, p')) :
    p' = ⟨p.input, p.offset + cs.length⟩ ∧
    (∀ c ∈ cs, is_latin_alphanumeric c = true) ∧
    p.input.drop p.offset = cs ++ p.input.drop (p.offset + cs.length) :=
  collect_alnum_go_ok _ p cs p' le_rfl h

theorem collect_alnum_err {p : ParserState} {e : SemVerParseError}
    (h : collect_alnum p = .error e) :
    ∃ c off, e = ⟨msgUnexpectedAlnum c off⟩ :=
  collect_alnum_go_err _ p e h

/-! ### The identifier-list rule -/

theorem joinDots_cons {x : List Char} {xs : List (List Char)} (h : xs ≠ []) :
    joinDots (x :: xs) = x ++ '.' :: joinDots xs := by
  cases xs with
  | nil => exact absurd rfl h
  | cons y t => rfl

theorem expect_identifiers_go_ok (fuel : Nat) :
    ∀ (p : ParserState) (name : List Char) (acc ids : List Identifier)
      (p' : ParserState),
    p.input.length - p.offset ≤ fuel →
    expect_identifiers_go fuel p name acc = .ok (ids, p') →
    ∃ new, ids = acc ++ new ∧ new ≠ [] ∧ (∀ i ∈ new, validIdent i) ∧
      p' = ⟨p.input, p.offset + (joinDots (new.map Identifier.value)).length⟩ ∧
      p.input.drop p.offset
        = joinDots (new.map Identifier.value)
          ++ p.input.drop
            (p.offset + (joinDots (new.map Identifier.value)).length) := by
  induction fuel with
  | zero => intro p name acc ids p' hf h; simp [expect_identifiers_go] at h
  | succ fuel ih =>
    intro p name acc ids p' hf h
    simp only [expect_identifiers_go] at h
    cases hn : next_is_alphanumeric_check p with
    | error e => rw [hn] at h; simp at h
    | ok r =>
      rw [hn] at h
      simp only [] at h
      by_cases hr : pyTruthy r = true
      · rw [if_pos hr] at h
        have hrt : r = some true := by
          cases r with
          | none => simp [pyTruthy] at hr
          | some b => cases b with
            | false => simp [pyTruthy] at hr
            | true => rfl
        subst hrt
        obtain ⟨c0, hpk, hlat⟩ := nac_true hn
        rw [advance_of_peek hpk] at h
        simp only [] at h
        cases hcol : collect_alnum ⟨p.input, p.offset + 1⟩ with
        | error e => rw [hcol] at h; simp at h
        | ok csp =>
          obtain ⟨cs, p2⟩ := csp
          rw [hcol] at h
          simp only [] at h
          obtain ⟨hp2, hlatcs, hdropcs⟩ := collect_alnum_ok hcol
          simp only [] at hp2 hdropcs
          subst hp2
          by_cases hdot : pyTruthy (ParserState.peek_and_then
              ⟨p.input, p.offset + 1 + cs.length⟩ is_dot) = true
          · rw [if_pos hdot] at h
            obtain ⟨cd, hpk2, hcd⟩ := pyTruthy_peek_and_then hdot
            have hcd' : cd = '.' := by simpa [is_dot, check_if_char] using hcd
            subst hcd'
            rw [advance_of_peek hpk2] at h
            simp only [] at h
            have hf3 : (ParserState.mk p.input (p.offset + 1 + cs.length + 1)
                ).input.length
                - (ParserState.mk p.input (p.offset + 1 + cs.length + 1)).offset
                ≤ fuel := by
              simp only []
              omega
            obtain ⟨new', hids, hne', hval', hp'', hdrop'⟩ :=
              ih _ name (acc ++ [Identifier.validated (c0 :: cs)]) ids p' hf3 h
            simp only [] at hp'' hdrop'
            have hmapne : new'.map Identifier.value ≠ [] := by
              simpa using hne'
            refine ⟨Identifier.validated (c0 :: cs) :: new', ?_, by simp, ?_, ?_, ?_⟩
            · rw [hids]; simp
            · intro i hi
              rcases List.mem_cons.mp hi with h1 | h1
              · rw [h1]
                refine ⟨by simp [Identifier.validated], ?_⟩
                intro c hc
                rcases List.mem_cons.mp hc with h2 | h2
                · rw [h2]; exact hlat
                · exact hlatcs c h2
              · exact hval' i h1
            · rw [hp'']
              simp only [Identifier.validated, List.map_cons,
                joinDots_cons hmapne, ParserState.mk.injEq, List.length_append,
                List.length_cons, true_and]
              omega
            · rw [peek_drop_cons hpk, hdropcs, peek_drop_cons hpk2]
              rw [hdrop']
              simp only [Identifier.validated, List.map_cons,
                joinDots_cons hmapne, List.length_append, List.length_cons,
                List.cons_append, List.append_assoc]
              have harith :
                  p.offset + 1 + cs.length + 1
                    + (joinDots (List.map Identifier.value new')).length
                  = p.offset + (cs.length
                    + ((joinDots (List.map Identifier.value new')).length + 1) + 1) := by
                omega
              rw [harith]
          · rw [if_neg hdot] at h
            have hok : acc ++ [Identifier.validated (c0 :: cs)] = ids ∧
                (ParserState.mk p.input (p.offset + 1 + cs.length)) = p' := by
              simpa using h
            obtain ⟨hids, hp'⟩ := hok
            refine ⟨[Identifier.validated (c0 :: cs)], hids.symm, by simp, ?_, ?_, ?_⟩
            · intro i hi
              rw [List.mem_singleton.mp hi]
              refine ⟨by simp [Identifier.validated], ?_⟩
              intro c hc
              rcases List.mem_cons.mp hc with h2 | h2
              · rw [h2]; exact hlat
              · exact hlatcs c h2
            · rw [← hp']
              simp only [Identifier.validated, List.map_cons, List.map_nil,
                joinDots, ParserState.mk.injEq, List.length_cons, true_and]
              omega
            · rw [peek_drop_cons hpk, hdropcs]
              simp only [Identifier.validated, List.map_cons, List.map_nil,
                joinDots, List.length_cons, List.cons_append]
              rw [show p.offset + (cs.length + 1) = p.offset + 1 + cs.length from
                by omega]
      · rw [if_neg hr] at h
        simp at h

theorem expect_identifiers_go_err (fuel : Nat) :
    ∀ (p : ParserState) (name : List Char) (acc : List Identifier)
      (e : SemVerParseError),
    expect_identifiers_go fuel p name acc = .error e →
    e.msg.head? = some 'E' ∨ e.msg.head? = some 'U' := by
  induction fuel with
  | zero =>
    intro p name acc e h
    have : (⟨msgExpectedIdentifier name p.offset⟩ : SemVerParseError) = e := by
      simpa [expect_identifiers_go] using h
    rw [← this]
    exact Or.inl (msgExpectedIdentifier_head _ _)
  | succ fuel ih =>
    intro p name acc e h
    simp only [expect_identifiers_go] at h
    cases hn : next_is_alphanumeric_check p with
    | error e' =>
      rw [hn] at h
      simp only [] at h
      have : e' = e := by simpa using h
      obtain ⟨c, hc⟩ := nac_err hn
      rw [← this, hc]
      exact Or.inr (msgUnexpectedAlnum_head _ _)
    | ok r =>
      rw [hn] at h
      simp only [] at h
      by_cases hr : pyTruthy r = true
      · rw [if_pos hr] at h
        have hrt : r = some true := by
          cases r with
          | none => simp [pyTruthy] at hr
          | some b => cases b with
            | false => simp [pyTruthy] at hr
            | true => rfl
        subst hrt
        obtain ⟨c0, hpk, -⟩ := nac_true hn
        rw [advance_of_peek hpk] at h
        simp only [] at h
        cases hcol : collect_alnum ⟨p.input, p.offset + 1⟩ with
        | error e' =>
          rw [hcol] at h
          simp only [] at h
          have : e' = e := by simpa using h
          obtain ⟨c, off, hc⟩ := collect_alnum_err hcol
          rw [← this, hc]
          exact Or.inr (msgUnexpectedAlnum_head _ _)
        | ok csp =>
          obtain ⟨cs, p2⟩ := csp
          rw [hcol] at h
          simp only [] at h
          by_cases hdot : pyTruthy (p2.peek_and_then is_dot) = true
          · rw [if_pos hdot] at h
            obtain ⟨cd, hpk2, -⟩ := pyTruthy_peek_and_then hdot
            rw [advance_of_peek hpk2] at h
            simp only [] at h
            exact ih _ name _ e h
          · rw [if_neg hdot] at h
            simp at h
      · rw [if_neg hr] at h
        have : (⟨msgExpectedIdentifier name p.offset⟩ : SemVerParseError) = e := by
          simpa using h
        rw [← this]
        exact Or.inl (msgExpectedIdentifier_head _ _)

theorem expect_identifiers_ok {p : ParserState} {name : List Char}
    {ids : List Identifier} {p' : ParserState}
    (h : expect_identifiers p name = .ok (ids, p')) :
    ids ≠ [] ∧ (∀ i ∈ ids, validIdent i) ∧
      p' = ⟨p.input, p.offset + (joinDots (ids.map Identifier.value)).length⟩ ∧
      p.input.drop p.offset
        = joinDots (ids.map Identifier.value)
          ++ p.input.drop
            (p.offset + (joinDots (ids.map Identifier.value)).length) := by
  unfold expect_identifiers expect_identifiers_loop at h
  cases hl : expect_identifiers_go (p.input.length - p.offset) p name [] with
  | error e => rw [hl] at h; simp at h
  | ok idsp =>
    obtain ⟨ids0, p0⟩ := idsp
    rw [hl] at h
    simp only [] at h
    obtain ⟨new, hids0, hne, hval, hp0, hdrop⟩ :=
      expect_identifiers_go_ok _ p name [] ids0 p0 le_rfl hl
    rw [List.nil_append] at hids0
    subst hids0
    rw [if_neg (by simpa using hne)] at h
    have hok : ids0 = ids ∧ p0 = p' := by simpa using h
    obtain ⟨h1, h2⟩ := hok
    subst h1
    subst h2
    exact ⟨hne, hval, hp0, hdrop⟩

theorem expect_identifiers_err {p : ParserState} {name : List Char}
    {e : SemVerParseError}
    (h : expect_identifiers p name = .error e) :
    e.msg.head? = some 'E' ∨ e.msg.head? = some 'U' := by
  unfold expect_identifiers expect_identifiers_loop at h
  cases hl : expect_identifiers_go (p.input.length - p.offset) p name [] with
  | error e' =>
    rw [hl] at h
    simp only [] at h
    have : e' = e := by simpa using h
    rw [← this]
    exact expect_identifiers_go_err _ p name [] e' hl
  | ok idsp =>
    obtain ⟨ids0, p0⟩ := idsp
    rw [hl] at h
    simp only [] at h
    by_cases hemp : ids0.isEmpty = true
    · rw [if_pos hemp] at h
      have : (⟨msgExpectedIdentifier name p0.offset⟩ : SemVerParseError) = e := by
        simpa using h
      rw [← this]
      exact Or.inl (msgExpectedIdentifier_head _ _)
    · rw [if_neg hemp] at h
      simp at h

/-! ### Relational corollaries of the rule specifications -/

theorem expect_version_component_ok' {p : ParserState} {name : List Char}
    {k : Int} {p' : ParserState}
    (h : expect_version_component p name = .ok (k, p')) :
    ∃ n : Nat, k = Int.ofNat n ∧ p'.input = p.input ∧
      p.input.drop p.offset = natDigits n ++ p.input.drop p'.offset := by
  obtain ⟨n, hk, hp', hdrop⟩ := expect_version_component_ok h
  subst hp'
  exact ⟨n, hk, rfl, by simpa using hdrop⟩

theorem expect_delimiter_ok' {p p' : ParserState}
    (h : expect_delimiter p = .ok p') :
    p'.input = p.input ∧
    p.input.drop p.offset = '.' :: p.input.drop p'.offset := by
  obtain ⟨hpk, hp'⟩ := expect_delimiter_ok h
  subst hp'
  exact ⟨rfl, by simpa using peek_drop_cons hpk⟩

theorem expect_identifiers_ok' {p : ParserState} {name : List Char}
    {ids : List Identifier} {p' : ParserState}
    (h : expect_identifiers p name = .ok (ids, p')) :
    ids ≠ [] ∧ (∀ i ∈ ids, validIdent i) ∧ p'.input = p.input ∧
      p.input.drop p.offset
        = joinDots (ids.map Identifier.value) ++ p.input.drop p'.offset := by
  obtain ⟨hne, hval, hp', hdrop⟩ := expect_identifiers_ok h
  subst hp'
  exact ⟨hne, hval, rfl, by simpa using hdrop⟩

theorem optional_identifiers_ok {start : Char → Bool} {name : List Char}
    {p : ParserState} {ids : List Identifier} {p' : ParserState}
    (h : optional_identifiers start name p = .ok (ids, p')) :
    (pyTruthy (p.peek_and_then start) = false ∧ ids = [] ∧ p' = p) ∨
    (∃ c, p.peek = some c ∧ start c = true ∧ ids ≠ [] ∧
      (∀ i ∈ ids, validIdent i) ∧ p'.input = p.input ∧
      p.input.drop p.offset
        = c :: (joinDots (ids.map Identifier.value)
            ++ p.input.drop p'.offset)) := by
  unfold optional_identifiers at h
  by_cases hg : pyTruthy (p.peek_and_then start) = true
  · obtain ⟨c, hpk, hc⟩ := pyTruthy_peek_and_then hg
    rw [if_pos hg, advance_of_peek hpk] at h
    simp only [] at h
    obtain ⟨hne, hval, hin, hdrop⟩ := expect_identifiers_ok' h
    simp only [] at hin hdrop
    refine Or.inr ⟨c, hpk, hc, hne, hval, hin, ?_⟩
    rw [peek_drop_cons hpk, hdrop]
  · rw [if_neg hg] at h
    have : ([] : List Identifier) = ids ∧ p = p' := by simpa using h
    exact Or.inl ⟨by simpa using hg, this.1.symm, this.2.symm⟩

theorem optional_identifiers_err {start : Char → Bool} {name : List Char}
    {p : ParserState} {e : SemVerParseError}
    (h : optional_identifiers start name p = .error e) :
    e.msg.head? = some 'E' ∨ e.msg.head? = some 'U' := by
  unfold optional_identifiers at h
  by_cases hg : pyTruthy (p.peek_and_then start) = true
  · obtain ⟨c, hpk, -⟩ := pyTruthy_peek_and_then hg
    rw [if_pos hg, advance_of_peek hpk] at h
    simp only [] at h
    exact expect_identifiers_err h
  · rw [if_neg hg] at h
    simp at h

theorem at_end_drop {p : ParserState} (h : p.at_end = true) :
    p.input.drop p.offset = [] := by
  unfold ParserState.at_end at h
  have heq : p.offset = p.input.length := by simpa using h
  exact List.drop_eq_nil_of_le (by omega)

theorem joinDots_ne_nil {xs : List (List Char)} (h1 : xs ≠ [])
    (h2 : ∀ x ∈ xs, x ≠ []) : joinDots xs ≠ [] := by
  cases xs with
  | nil => exact absurd rfl h1
  | cons x t =>
    cases t with
    | nil => exact h2 x (by simp)
    | cons y u =>
      rw [joinDots_cons (by simp)]
      intro hc
      rcases List.append_eq_nil.mp hc with ⟨-, h4⟩
      simp at h4

/-! ### Exactness: a successful parse renders back to its input -/

theorem str_mk_eq (n1 n2 n3 : Nat) (pre build : List Identifier)
    (hpre : ∀ i ∈ pre, validIdent i) (hbuild : ∀ i ∈ build, validIdent i) :
    SemVer.str ⟨Int.ofNat n1, Int.ofNat n2, Int.ofNat n3, pre, build⟩
      = (natDigits n1 ++ '.' :: (natDigits n2 ++ '.' :: natDigits n3))
        ++ ((if pre = [] then []
              else '-' :: joinDots (pre.map Identifier.value))
          ++ (if build = [] then []
              else '+' :: joinDots (build.map Identifier.value))) := by
  have hjoin : ∀ l : List Identifier, (∀ i ∈ l, validIdent i) → l ≠ [] →
      (joinDots (l.map Identifier.value)).isEmpty = false := by
    intro l hv hne
    have hj : joinDots (l.map Identifier.value) ≠ [] := by
      apply joinDots_ne_nil (by simpa using hne)
      intro x hx
      obtain ⟨i, hi, hix⟩ := List.mem_map.mp hx
      rw [← hix]
      exact (hv i hi).1
    cases hc : joinDots (l.map Identifier.value) with
    | nil => exact absurd hc hj
    | cons a t => rfl
  simp only [SemVer.str, pyIntStr_ofNat]
  by_cases hp0 : pre = []
  · subst hp0
    by_cases hb0 : build = []
    · subst hb0
      simp [joinDots]
    · rw [if_neg hb0]
      have hbe := hjoin build hbuild hb0
      simp only [List.map_nil, joinDots, List.isEmpty_nil, if_true, hbe,
        Bool.false_eq_true, if_false]
      simp
  · rw [if_neg hp0]
    have hpe := hjoin pre hpre hp0
    by_cases hb0 : build = []
    · subst hb0
      simp only [List.map_nil, joinDots, List.isEmpty_nil, if_true, hpe,
        Bool.false_eq_true, if_false]
      simp
    · rw [if_neg hb0]
      have hbe := hjoin build hbuild hb0
      simp only [hpe, hbe, Bool.false_eq_true, if_false]
      simp

theorem parseStr_ok_spec {s : List Char} {v : SemVer} (h : parseStr s = .ok v) :
    SemVer.str v = s ∧ (∀ i ∈ v.prerelease_identifiers, validIdent i) ∧
      (∀ i ∈ v.build_identifiers, validIdent i) := by
  unfold parseStr at h
  by_cases hlen : s.length > MAX_VERSION_STRING_CODEUNIT_COUNT
  · rw [if_pos hlen] at h; simp at h
  · rw [if_neg hlen] at h
    cases h1 : expect_version_component ⟨s, 0⟩ "major".data with
    | error e => rw [h1] at h; simp at h
    | ok kp1 =>
    obtain ⟨major, p1⟩ := kp1
    rw [h1] at h
    simp only [] at h
    obtain ⟨n1, hk1, hin1, hdrop1⟩ := expect_version_component_ok' h1
    simp only [] at hin1 hdrop1
    rw [List.drop_zero] at hdrop1
    cases h2 : expect_delimiter p1 with
    | error e => rw [h2] at h; simp at h
    | ok p2 =>
    rw [h2] at h
    simp only [] at h
    obtain ⟨hin2, hdrop2⟩ := expect_delimiter_ok' h2
    rw [hin1] at hin2 hdrop2
    cases h3 : expect_version_component p2 "minor".data with
    | error e => rw [h3] at h; simp at h
    | ok kp3 =>
    obtain ⟨minor, p3⟩ := kp3
    rw [h3] at h
    simp only [] at h
    obtain ⟨n2, hk2, hin3, hdrop3⟩ := expect_version_component_ok' h3
    rw [hin2] at hin3 hdrop3
    cases h4 : expect_delimiter p3 with
    | error e => rw [h4] at h; simp at h
    | ok p4 =>
    rw [h4] at h
    simp only [] at h
    obtain ⟨hin4, hdrop4⟩ := expect_delimiter_ok' h4
    rw [hin3] at hin4 hdrop4
    cases h5 : expect_version_component p4 "patch".data with
    | error e => rw [h5] at h; simp at h
    | ok kp5 =>
    obtain ⟨patch, p5⟩ := kp5
    rw [h5] at h
    simp only [] at h
    obtain ⟨n3, hk3, hin5, hdrop5⟩ := expect_version_component_ok' h5
    rw [hin4] at hin5 hdrop5
    cases h6 : optional_identifiers is_prerelease_start "pre-release".data p5 with
    | error e => rw [h6] at h; simp at h
    | ok prp6 =>
    obtain ⟨pre, p6⟩ := prp6
    rw [h6] at h
    simp only [] at h
    have hstep6 : (∀ i ∈ pre, validIdent i) ∧ p6.input = s ∧
        s.drop p5.offset
          = (if pre = [] then []
              else '-' :: joinDots (pre.map Identifier.value))
            ++ s.drop p6.offset := by
      rcases optional_identifiers_ok h6 with ⟨-, hids, hp⟩ |
        ⟨c, hpk, hc, hne, hval, hin, hdrop⟩
      · subst hids
        subst hp
        exact ⟨by simp, hin5, by simp⟩
      · have hcd : c = '-' := by
          simpa [is_prerelease_start, check_if_char] using hc
        subst hcd
        rw [hin5] at hin hdrop
        refine ⟨hval, hin, ?_⟩
        rw [hdrop, if_neg hne]
        simp
    obtain ⟨hvalpre, hin6, hdrop6⟩ := hstep6
    cases h7 : optional_identifiers is_build_start "build".data p6 with
    | error e => rw [h7] at h; simp at h
    | ok bdp7 =>
    obtain ⟨build, p7⟩ := bdp7
    rw [h7] at h
    simp only [] at h
    have hstep7 : (∀ i ∈ build, validIdent i) ∧ p7.input = s ∧
        s.drop p6.offset
          = (if build = [] then []
              else '+' :: joinDots (build.map Identifier.value))
            ++ s.drop p7.offset := by
      rcases optional_identifiers_ok h7 with ⟨-, hids, hp⟩ |
        ⟨c, hpk, hc, hne, hval, hin, hdrop⟩
      · subst hids
        subst hp
        exact ⟨by simp, hin6, by simp⟩
      · have hcd : c = '+' := by
          simpa [is_build_start, check_if_char] using hc
        subst hcd
        rw [hin6] at hin hdrop
        refine ⟨hval, hin, ?_⟩
        rw [hdrop, if_neg hne]
        simp
    obtain ⟨hvalbuild, hin7, hdrop7⟩ := hstep7
    by_cases hend : p7.at_end = true
    · rw [if_pos hend] at h
      have hv : SemVer.mk major minor patch pre build = v := by simpa using h
      have hdropEnd : s.drop p7.offset = [] := by
        have := at_end_drop hend
        rwa [hin7] at this
      rw [hdropEnd, List.append_nil] at hdrop7
      rw [hdrop7] at hdrop6
      rw [hdrop6] at hdrop5
      rw [hdrop5] at hdrop4
      rw [hdrop4] at hdrop3
      rw [hdrop3] at hdrop2
      rw [hdrop2] at hdrop1
      subst hk1 hk2 hk3
      rw [← hv]
      refine ⟨?_, hvalpre, hvalbuild⟩
      rw [str_mk_eq n1 n2 n3 pre build hvalpre hvalbuild, hdrop1]
      simp [List.append_assoc]
    · rw [if_neg hend] at h
      simp at h

/-! ### Error classification for `parseStr` -/

theorem parseStr_err {s : List Char} {e : SemVerParseError}
    (h : parseStr s = .error e) :
    (s.length > MAX_VERSION_STRING_CODEUNIT_COUNT ∧ e.msg = msgLimitExceeded) ∨
    e.msg.head? = some 'E' ∨ e.msg.head? = some 'U' := by
  unfold parseStr at h
  by_cases hlen : s.length > MAX_VERSION_STRING_CODEUNIT_COUNT
  · rw [if_pos hlen] at h
    have : (⟨msgLimitExceeded⟩ : SemVerParseError) = e := by simpa using h
    exact Or.inl ⟨hlen, by rw [← this]⟩
  · rw [if_neg hlen] at h
    refine Or.inr ?_
    cases h1 : expect_version_component ⟨s, 0⟩ "major".data with
    | error e1 =>
      rw [h1] at h
      have : e1 = e := by simpa using h
      exact this ▸ expect_version_component_err h1
    | ok kp1 =>
    obtain ⟨major, p1⟩ := kp1
    rw [h1] at h
    simp only [] at h
    cases h2 : expect_delimiter p1 with
    | error e2 =>
      rw [h2] at h
      have : e2 = e := by simpa using h
      exact this ▸ Or.inl (expect_delimiter_err h2)
    | ok p2 =>
    rw [h2] at h
    simp only [] at h
    cases h3 : expect_version_component p2 "minor".data with
    | error e3 =>
      rw [h3] at h
      have : e3 = e := by simpa using h
      exact this ▸ expect_version_component_err h3
    | ok kp3 =>
    obtain ⟨minor, p3⟩ := kp3
    rw [h3] at h
    simp only [] at h
    cases h4 : expect_delimiter p3 with
    | error e4 =>
      rw [h4] at h
      have : e4 = e := by simpa using h
      exact this ▸ Or.inl (expect_delimiter_err h4)
    | ok p4 =>
    rw [h4] at h
    simp only [] at h
    cases h5 : expect_version_component p4 "patch".data with
    | error e5 =>
      rw [h5] at h
      have : e5 = e := by simpa using h
      exact this ▸ expect_version_component_err h5
    | ok kp5 =>
    obtain ⟨patch, p5⟩ := kp5
    rw [h5] at h
    simp only [] at h
    cases h6 : optional_identifiers is_prerelease_start "pre-release".data p5 with
    | error e6 =>
      rw [h6] at h
      have : e6 = e := by simpa using h
      exact this ▸ optional_identifiers_err h6
    | ok prp6 =>
    obtain ⟨pre, p6⟩ := prp6
    rw [h6] at h
    simp only [] at h
    cases h7 : optional_identifiers is_build_start "build".data p6 with
    | error e7 =>
      rw [h7] at h
      have : e7 = e := by simpa using h
      exact this ▸ optional_identifiers_err h7
    | ok bdp7 =>
    obtain ⟨build, p7⟩ := bdp7
    rw [h7] at h
    simp only [] at h
    by_cases hend : p7.at_end = true
    · rw [if_pos hend] at h
      simp at h
    · rw [if_neg hend] at h
      have : (⟨msgUnexpectedCharacter p7.offset⟩ : SemVerParseError) = e := by
        simpa using h
      rw [← this]
      exact Or.inr (msgUnexpectedCharacter_head _)

/-! ### Constructive runs of the identifier rule (for digit identifiers) -/

theorem nac_of_latin {p : ParserState} {c : Char} (hpk : p.peek = some c)
    (hl : is_latin_alphanumeric c = true) :
    next_is_alphanumeric_check p = .ok (some true) := by
  unfold next_is_alphanumeric_check
  rw [hpk]
  simp [hl]

theorem nac_none {p : ParserState} (hpk : p.peek = none) :
    next_is_alphanumeric_check p = .ok none := by
  unfold next_is_alphanumeric_check
  rw [hpk]

theorem latin_of_digit {c : Char} (h : is_digit c = true) :
    is_latin_alphanumeric c = true := by
  unfold is_digit Char.isDigit at h
  unfold is_latin_alphanumeric
  rw [show (('0' ≤ c && c ≤ '9') : Bool) = true from h]
  simp

theorem collect_alnum_go_all (cs : List Char) :
    ∀ (fuel : Nat) (p : ParserState),
    p.input.drop p.offset = cs →
    (∀ c ∈ cs, is_latin_alphanumeric c = true) →
    p.input.length - p.offset ≤ fuel →
    collect_alnum_go fuel p = .ok (cs, ⟨p.input, p.offset + cs.length⟩) := by
  induction cs with
  | nil =>
    intro fuel p hdrop hlat hf
    have hpk : p.peek = none := by
      rw [peek_eq_head_drop, hdrop]
      rfl
    cases fuel with
    | zero => simp [collect_alnum_go]
    | succ fuel => simp [collect_alnum_go, nac_none hpk, pyTruthy]
  | cons c t ih =>
    intro fuel p hdrop hlat hf
    have hpk : p.peek = some c := by
      rw [peek_eq_head_drop, hdrop]
      rfl
    have hlt : p.offset < p.input.length := (peek_eq_some hpk).1
    cases fuel with
    | zero => omega
    | succ fuel =>
      have hdx := peek_drop_cons hpk
      rw [hdrop] at hdx
      have hdt : p.input.drop (p.offset + 1) = t := by
        have := List.cons.injEq c t c (p.input.drop (p.offset + 1)) ▸ hdx
        simpa using hdx.symm
      have hrec := ih fuel ⟨p.input, p.offset + 1⟩ (by simpa using hdt)
        (fun x hx => hlat x (by simp [hx])) (by simp; omega)
      simp only [collect_alnum_go, nac_of_latin hpk (hlat c (by simp)), pyTruthy,
        if_true, advance_of_peek hpk]
      rw [hrec]
      simp only [List.length_cons]
      rw [show p.offset + (t.length + 1) = p.offset + 1 + t.length from by omega]

theorem pyTruthy_some (b : Bool) : pyTruthy (some b) = b := rfl

theorem expect_identifiers_digits (name ds : List Char) (hne : ds ≠ [])
    (hdig : ∀ c ∈ ds, is_digit c = true) :
    expect_identifiers ⟨ds, 0⟩ name = .ok ([⟨ds⟩], ⟨ds, ds.length⟩) := by
  have hlat : ∀ c ∈ ds, is_latin_alphanumeric c = true :=
    fun c hc => latin_of_digit (hdig c hc)
  obtain ⟨d, t, rfl⟩ : ∃ d t, ds = d :: t := by
    cases ds with
    | nil => exact absurd rfl hne
    | cons d t => exact ⟨d, t, rfl⟩
  have hpk : ParserState.peek ⟨d :: t, 0⟩ = some d := by
    simp [ParserState.peek]
  have hcol : collect_alnum ⟨d :: t, (0 : Nat) + 1⟩ =
      .ok (t, ⟨d :: t, (0 : Nat) + 1 + t.length⟩) := by
    unfold collect_alnum
    exact collect_alnum_go_all t _ ⟨d :: t, (0 : Nat) + 1⟩ (by simp)
      (fun x hx => hlat x (by simp [hx])) le_rfl
  have hend : ParserState.peek ⟨d :: t, t.length + 1⟩ = none := by
    apply peek_none_of_le
    simp only [List.length_cons]
    omega
  have hdot : pyTruthy (ParserState.peek_and_then
      ⟨d :: t, t.length + 1⟩ is_dot) = false := by
    unfold ParserState.peek_and_then
    rw [hend]
    rfl
  have harr : (0 : Nat) + 1 + t.length = (d :: t).length := by
    simp only [List.length_cons]
    omega
  unfold expect_identifiers expect_identifiers_loop
  have hfuel : (⟨d :: t, 0⟩ : ParserState).input.length
      - (⟨d :: t, 0⟩ : ParserState).offset = t.length + 1 := by
    simp
  rw [hfuel]
  simp [expect_identifiers_go, nac_of_latin hpk (hlat d (by simp)),
    advance_of_peek hpk, hcol, hdot, pyTruthy_some, Identifier.validated, harr]

/-! ### The claims -/

/-- C1: for every SemVer value `v` produced by a successful call to `parse`,
stringifying `v` and parsing the result yields a value equal to `v`:
`parse(toString(v)) == v`. -/
theorem C1_parse_roundtrip (s : List Char) (v : SemVer)
    (h : parseStr s = .ok v) :
    parseStr (SemVer.str v) = .ok v := by
  rw [(parseStr_ok_spec h).1]
  exact h

theorem C1_parse_roundtrip_witness :
    parseStr (SemVer.str ⟨1, 2, 3, [⟨"a".data⟩], [⟨"b1".data⟩]⟩)
      = .ok ⟨1, 2, 3, [⟨"a".data⟩], [⟨"b1".data⟩]⟩ :=
  C1_parse_roundtrip "1.2.3-a+b1".data _ (by decide)

/-- C2: the four literal diagnostics: `parse("")` fails with "Expected major
version number at offset 0"; `parse("1.1.1-")` with "Expected pre-release
identifier at offset 6"; `parse("01.0.0")` with "Unexpected digit at offset 1,
numbers cannot start with zero"; `parse("1.1.1-a+b.c ")` with "Unexpected
character at offset 11". -/
theorem C2_exact_diagnostics :
    parseStr "".data
      = .error ⟨"Expected major version number at offset 0".data⟩ ∧
    parseStr "1.1.1-".data
      = .error ⟨"Expected pre-release identifier at offset 6".data⟩ ∧
    parseStr "01.0.0".data
      = .error ⟨"Unexpected digit at offset 1, numbers cannot start with zero".data⟩ ∧
    parseStr "1.1.1-a+b.c ".data
      = .error ⟨"Unexpected character at offset 11".data⟩ := by
  refine ⟨by decide, by decide, by decide, by decide⟩

/-- C3, counterexample: the claim "the limit-guard fires iff the input has more
than 256 UTF-16 code units (a non-BMP character counting as two)" is false: a
string of 129 copies of U+1D11E has 258 UTF-16 units, yet the guard does not
fire (Python's `len`, which the source compares against the limit, counts each
code point as one). -/
theorem C3_utf16_counterexample :
    256 < utf16Length (List.replicate 129 (Char.ofNat 0x1D11E)) ∧
    parseStr (List.replicate 129 (Char.ofNat 0x1D11E))
      ≠ .error ⟨msgLimitExceeded⟩ := by
  exact ⟨by decide, by decide⟩

/-- C3, amended: `parse` raises the "Limit exceeded" parse error (before
inspecting any character) if and only if the number of code points of the
input — Python's `len`, in which every character counts as one unit — exceeds
256; a string of at most 256 code points is never rejected by this guard. -/
theorem C3_length_guard_codepoints (s : List Char) :
    parseStr s = .error ⟨msgLimitExceeded⟩ ↔ 256 < s.length := by
  constructor
  · intro h
    rcases parseStr_err h with ⟨hgt, -⟩ | hh | hh
    · simpa [MAX_VERSION_STRING_CODEUNIT_COUNT] using hgt
    · exact absurd hh (by decide)
    · exact absurd hh (by decide)
  · intro hlen
    unfold parseStr
    rw [if_pos (show s.length > MAX_VERSION_STRING_CODEUNIT_COUNT from by
      simpa [MAX_VERSION_STRING_CODEUNIT_COUNT] using hlen)]

/-- C5: for every non-string argument, `parse` raises the distinct
`TypeError` kind ("s must be a string") and not the parse-error kind; the two
error kinds are disjoint by construction. -/
theorem C5_type_guard :
    (∀ x : PyObj, (∀ t, x ≠ .pyStr t) →
      parse x = .error (.typeError "s must be a string".data)) ∧
    (∀ (m : List Char) (e : SemVerParseError),
      PyError.typeError m ≠ PyError.semverError e) := by
  constructor
  · intro x hx
    cases x with
    | pyStr t => exact absurd rfl (hx t)
    | pyNone => rfl
    | pyInt n => rfl
    | pyList l => rfl
  · intro m e h
    exact PyError.noConfusion h

theorem C5_type_guard_witness :
    parse .pyNone = .error (.typeError "s must be a string".data) ∧
    parse (.pyInt 123) = .error (.typeError "s must be a string".data) ∧
    parse (.pyList [1, 2, 3]) = .error (.typeError "s must be a string".data) :=
  ⟨C5_type_guard.1 .pyNone (by intro t; simp),
    C5_type_guard.1 (.pyInt 123) (by intro t; simp),
    C5_type_guard.1 (.pyList [1, 2, 3]) (by intro t; simp)⟩

/-- C6: `parse("0.0.0")` yields major 0, minor 0, patch 0 and empty identifier
lists; `parse("1.0.0-123.abc123+456.def456")` yields pre-release identifiers
`["123", "abc123"]` and build identifiers `["456", "def456"]`, in order. -/
theorem C6_successful_parses :
    parseStr "0.0.0".data = .ok ⟨0, 0, 0, [], []⟩ ∧
    parseStr "1.0.0-123.abc123+456.def456".data
      = .ok ⟨1, 0, 0, [⟨"123".data⟩, ⟨"abc123".data⟩],
          [⟨"456".data⟩, ⟨"def456".data⟩]⟩ := by
  exact ⟨by decide, by decide⟩

/-- C7: the public `Identifier` constructor succeeds exactly on the non-empty
strings of ASCII letters and digits, and otherwise fails with the
"An identifier must be a non-empty (latin) alphanumeric string" parse error. -/
theorem C7_identifier_validity (v : List Char) :
    (Identifier.make v = .ok ⟨v⟩ ↔
      v ≠ [] ∧ ∀ c ∈ v, is_latin_alphanumeric c = true) ∧
    (Identifier.make v = .error ⟨msgIdentifierInvalid⟩ ↔
      ¬(v ≠ [] ∧ ∀ c ∈ v, is_latin_alphanumeric c = true)) := by
  unfold Identifier.make
  by_cases hc : (v.isEmpty || !(v.all is_latin_alphanumeric)) = true
  · rw [if_pos hc]
    have hn : ¬(v ≠ [] ∧ ∀ c ∈ v, is_latin_alphanumeric c = true) := by
      rcases Bool.or_eq_true_iff.mp hc with h | h
      · intro hx
        exact hx.1 (by simpa using h)
      · intro hx
        have : ∃ c ∈ v, ¬is_latin_alphanumeric c = true := by
          simpa using h
        obtain ⟨c, hcv, hcl⟩ := this
        exact hcl (hx.2 c hcv)
    exact ⟨⟨fun h => absurd h (by simp), fun h => absurd h hn⟩,
      ⟨fun _ => hn, fun _ => rfl⟩⟩
  · rw [if_neg hc]
    have hp : v ≠ [] ∧ ∀ c ∈ v, is_latin_alphanumeric c = true := by
      have := Bool.not_eq_true _ ▸ hc
      have h2 : v.isEmpty = false ∧ (!(v.all is_latin_alphanumeric)) = false := by
        simpa using hc
      refine ⟨by simpa using h2.1, ?_⟩
      have : v.all is_latin_alphanumeric = true := by simpa using h2.2
      simpa [List.all_eq_true] using this
    exact ⟨⟨fun _ => hp, fun _ => rfl⟩,
      ⟨fun h => absurd h (by simp), fun h => absurd hp h⟩⟩

/-- C8: no execution of the parser ever reaches `advance()` at end of input:
`parse` never raises "Internal Error: advanced beyond input", on any string and
on any argument whatsoever (every grammar rule checks `peek`/`peek_and_then`
before advancing). -/
theorem C8_no_internal_error :
    (∀ s : List Char, parseStr s ≠ .error ⟨msgInternal⟩) ∧
    (∀ x : PyObj, parse x ≠ .error (.semverError ⟨msgInternal⟩)) := by
  have h1 : ∀ s : List Char, parseStr s ≠ .error ⟨msgInternal⟩ := by
    intro s h
    rcases parseStr_err h with ⟨-, hm⟩ | hh | hh
    · exact absurd hm (by decide)
    · exact absurd hh (by decide)
    · exact absurd hh (by decide)
  refine ⟨h1, ?_⟩
  intro x h
  cases x with
  | pyStr s =>
    unfold parse at h
    simp only [] at h
    cases hps : parseStr s with
    | ok v =>
      rw [hps] at h
      simp [Except.mapError] at h
    | error e =>
      rw [hps] at h
      have he : e = ⟨msgInternal⟩ := by
        simpa [Except.mapError] using h
      exact h1 s (he ▸ hps)
  | pyNone => simp [parse] at h
  | pyInt n => simp [parse] at h
  | pyList l => simp [parse] at h

theorem C8_no_internal_error_witness :
    parseStr "1.0.0-a+b".data ≠ .error ⟨msgInternal⟩ ∧
    parse (.pyStr "1.0.0".data) ≠ .error (.semverError ⟨msgInternal⟩) :=
  ⟨C8_no_internal_error.1 "1.0.0-a+b".data,
    C8_no_internal_error.2 (.pyStr "1.0.0".data)⟩

/-- C9: a hyphen is never accepted inside a pre-release or build identifier:
`parse("1.0.0-alpha-1")` raises a parse error ("Unexpected character at offset
11"), and no identifier of any successfully parsed value contains `'-'`, even
though the SemVer 2.0 grammar quoted in the module docstring admits `'-'` as an
identifier character. -/
theorem C9_hyphen_rejected :
    parseStr "1.0.0-alpha-1".data
      = .error ⟨"Unexpected character at offset 11".data⟩ ∧
    (∀ (s : List Char) (v : SemVer), parseStr s = .ok v →
      ∀ i, (i ∈ v.prerelease_identifiers ∨ i ∈ v.build_identifiers) →
        '-' ∉ i.value) := by
  refine ⟨by decide, ?_⟩
  intro s v h i hi hmem
  obtain ⟨-, hpre, hbuild⟩ := parseStr_ok_spec h
  have hval : validIdent i := by
    rcases hi with h1 | h1
    · exact hpre i h1
    · exact hbuild i h1
  have := hval.2 '-' hmem
  exact absurd this (by decide)

theorem C9_hyphen_rejected_witness :
    '-' ∉ (⟨"a1".data⟩ : Identifier).value :=
  C9_hyphen_rejected.2 "1.0.0-a1+b2".data
    ⟨1, 0, 0, [⟨"a1".data⟩], [⟨"b2".data⟩]⟩ (by decide)
    ⟨"a1".data⟩ (Or.inl (by simp))

/-- C10: numeric pre-release identifiers with leading zeros are accepted:
`parse("1.0.0-01")` succeeds with pre-release identifier list `["01"]`, and more
generally the identifier rule accepts any non-empty digit string (the
leading-zero restriction applies only to the version components). -/
theorem C10_identifier_leading_zeros :
    parseStr "1.0.0-01".data = .ok ⟨1, 0, 0, [⟨"01".data⟩], []⟩ ∧
    (∀ (name ds : List Char), ds ≠ [] → (∀ c ∈ ds, is_digit c = true) →
      expect_identifiers ⟨ds, 0⟩ name = .ok ([⟨ds⟩], ⟨ds, ds.length⟩)) :=
  ⟨by decide, fun name ds h1 h2 => expect_identifiers_digits name ds h1 h2⟩

theorem C10_identifier_leading_zeros_witness :
    expect_identifiers ⟨"007".data, 0⟩ "pre-release".data
      = .ok ([⟨"007".data⟩], ⟨"007".data, 3⟩) := by
  have h := C10_identifier_leading_zeros.2 "pre-release".data "007".data
    (by decide) (by decide)
  simpa using h

end VersionBuddy
